import Mathlib

/-!
Shallow embedding of the rlox lexical scanner (src/compiler/src/lexer.rs).

The source text is a `List Char` (Rust `String`, a sequence of Unicode
scalar values).  The Rust code mixes two units when it indexes the source:
`current`/`start` are incremented once per character consumed, but
`is_at_end`, `peek_next` and the slicing calls `source.get(a..b)` measure
the source in UTF-8 bytes.  The embedding keeps both units: `byteLen`
is the UTF-8 byte length of a character list and `byteSlice` is Rust's
`str::get` on byte offsets (returning `none` off a char boundary, the
case Rust's `unwrap` turns into a panic).  A result of `none` everywhere
models a panic (failed `unwrap`) or a non-terminating loop.
-/

namespace RLox

/-- `TokenType` from lexer.rs.  Keyword constructors carry a `kw` marker
where Lean reserves the bare word; `number` carries the parsed value as
an exact rational, modelling the `f64` decimal parse. -/
inductive TokenType where
  | leftParen | rightParen | leftBrace | rightBrace
  | comma | dot | minus | plus | semicolon | slash | star
  | bang | bangEqual | equal | equalEqual
  | greater | greaterEqual | less | lessEqual
  | identifier
  | string (s : List Char)
  | number (v : ℚ)
  | kwAnd | kwClass | kwElse | kwFalse | kwFun | kwFor | kwIf | kwNil
  | kwOr | kwPrint | kwReturn | kwSuper | kwThis | kwTrue | kwVar | kwWhile
  | eof
deriving DecidableEq

/-- `Token` from lexer.rs: kind, exact source substring, 1-based line. -/
structure Token where
  type : TokenType
  lexeme : List Char
  line : Nat
deriving DecidableEq

/-- The scanner state: the fields of `struct Lexer` (the keyword table is
a fixed function, `keywordLookup`). -/
structure LexerSt where
  source : List Char
  tokens : List Token
  start : Nat
  current : Nat
  line : Nat
deriving DecidableEq

/-- UTF-8 byte length of a character list (Rust `String::len`). -/
def byteLen (s : List Char) : Nat := (s.map Char.utf8Size).sum

/-- Rust `str::get (a..b)` with byte offsets `a`, `b`: the substring when
`a ≤ b`, both within bounds and both on char boundaries, otherwise `none`. -/
def byteSlice : List Char → Nat → Nat → Option (List Char)
  | _, 0, 0 => some []
  | [], _, _ => none
  | c :: rest, 0, b =>
    if c.utf8Size ≤ b then (byteSlice rest 0 (b - c.utf8Size)).map (c :: ·)
    else none
  | c :: rest, a, b =>
    if c.utf8Size ≤ a ∧ c.utf8Size ≤ b then byteSlice rest (a - c.utf8Size) (b - c.utf8Size)
    else none

/-- The `IS_DIGIT!` macro: `('0'..='9').contains c`. -/
def isDigitCh (c : Char) : Bool := decide ('0' ≤ c) && decide (c ≤ '9')

/-- The `IS_ALPHA!` macro: ASCII letters and underscore. -/
def isAlphaCh (c : Char) : Bool :=
  (decide ('a' ≤ c) && decide (c ≤ 'z')) || (decide ('A' ≤ c) && decide (c ≤ 'Z')) || c == '_'

/-- The `IS_ALPHANUMERIC!` macro. -/
def isAlphaNumCh (c : Char) : Bool := isAlphaCh c || isDigitCh c

/-- The keyword table built in `Lexer::new`. -/
def keywordLookup (s : List Char) : Option TokenType :=
  if s = "and".toList then some .kwAnd
  else if s = "class".toList then some .kwClass
  else if s = "else".toList then some .kwElse
  else if s = "false".toList then some .kwFalse
  else if s = "for".toList then some .kwFor
  else if s = "fun".toList then some .kwFun
  else if s = "if".toList then some .kwIf
  else if s = "nil".toList then some .kwNil
  else if s = "or".toList then some .kwOr
  else if s = "print".toList then some .kwPrint
  else if s = "return".toList then some .kwReturn
  else if s = "super".toList then some .kwSuper
  else if s = "this".toList then some .kwThis
  else if s = "true".toList then some .kwTrue
  else if s = "var".toList then some .kwVar
  else if s = "while".toList then some .kwWhile
  else none

/-- `Lexer::is_at_end`: `current >= source.len()` — a BYTE bound checked
against the char-counting cursor. -/
def isAtEnd (st : LexerSt) : Bool := byteLen st.source ≤ st.current

/-- `Lexer::peek`: `'\0'` at end, otherwise `chars().nth(current).unwrap()`
(`none` = panic when the char index is exhausted before the byte bound). -/
def peek (st : LexerSt) : Option Char :=
  if isAtEnd st then some '\x00' else st.source.get? st.current

/-- `Lexer::peek_next`: byte bound check on `current + 1`, then
`chars().nth(current + 1).unwrap()`. -/
def peekNext (st : LexerSt) : Option Char :=
  if byteLen st.source ≤ st.current + 1 then some '\x00'
  else st.source.get? (st.current + 1)

/-- `Lexer::advance`: read `chars().nth(current)`, then `current += 1`. -/
def advance (st : LexerSt) : Option Char × LexerSt :=
  (st.source.get? st.current, { st with current := st.current + 1 })

/-- `Lexer::add_token`: push a token whose lexeme is the byte slice
`source[start..current]` (`unwrap` panics off a char boundary) at the
scanner's CURRENT line. -/
def addToken (st : LexerSt) (t : TokenType) : Option LexerSt :=
  (byteSlice st.source st.start st.current).map fun text =>
    { st with tokens := st.tokens ++ [⟨t, text, st.line⟩] }

/-- The `match_lexeme!` macro: on lookahead hit consume it and emit `hit`,
otherwise emit `miss` without consuming. -/
def matchLexeme (st : LexerSt) (expected : Char) (hit miss : TokenType) : Option LexerSt :=
  if isAtEnd st then addToken st miss
  else
    match st.source.get? st.current with
    | none => none
    | some c =>
      if c = expected then addToken { st with current := st.current + 1 } hit
      else addToken st miss

/-- The `match_lexeme_peek!` macro: lookahead test without consuming. -/
def matchLexemePeek (st : LexerSt) (expected : Char) : Option Bool :=
  if isAtEnd st then some false
  else
    match st.source.get? st.current with
    | none => none
    | some c => some (c == expected)

/-- The `while IS_ALPHANUMERIC!(&self.peek())` loop of `Lexer::identifier`,
with a fuel argument standing for the loop's iteration count: at end of
input `peek` is `'\x00'` (not alphanumeric) and the loop exits.  Fuel
exhaustion yields `none`; `identLoopF_fuel_irrel` below shows every fuel
above `st.source.length - st.current` gives the same result (an iteration
needs the char lookup to hit, which bounds the cursor by the length), so
the wrapper's choice of fuel is always enough. -/
def identLoopF : Nat → LexerSt → Option LexerSt
  | 0, _ => none
  | fuel + 1, st =>
    if isAtEnd st then some st
    else
      match st.source.get? st.current with
      | none => none
      | some c =>
        if isAlphaNumCh c then identLoopF fuel { st with current := st.current + 1 }
        else some st

/-- `identLoopF` at an always-sufficient fuel. -/
def identLoop (st : LexerSt) : Option LexerSt :=
  identLoopF (st.source.length - st.current + 1) st

/-- A `while IS_DIGIT!(&self.peek())` loop of `Lexer::number`, fueled the
same way as `identLoopF`. -/
def digitLoopF : Nat → LexerSt → Option LexerSt
  | 0, _ => none
  | fuel + 1, st =>
    if isAtEnd st then some st
    else
      match st.source.get? st.current with
      | none => none
      | some c =>
        if isDigitCh c then digitLoopF fuel { st with current := st.current + 1 }
        else some st

/-- `digitLoopF` at an always-sufficient fuel. -/
def digitLoop (st : LexerSt) : Option LexerSt :=
  digitLoopF (st.source.length - st.current + 1) st

/-- The `while self.peek() != '"' && !self.is_at_end()` loop of
`Lexer::string`, counting embedded newlines, fueled the same way as
`identLoopF`. -/
def stringLoopF : Nat → LexerSt → Option LexerSt
  | 0, _ => none
  | fuel + 1, st =>
    if isAtEnd st then some st
    else
      match st.source.get? st.current with
      | none => none
      | some c =>
        if c = '"' then some st
        else
          stringLoopF fuel { st with current := st.current + 1,
                                     line := if c = '\n' then st.line + 1 else st.line }

/-- `stringLoopF` at an always-sufficient fuel. -/
def stringLoop (st : LexerSt) : Option LexerSt :=
  stringLoopF (st.source.length - st.current + 1) st

/-- Value of a digit string, most significant first. -/
def digitsToNat (s : List Char) : Nat :=
  s.foldl (fun acc c => acc * 10 + (c.toNat - '0'.toNat)) 0

/-- Models `str::parse::<f64>` on the decimal strings the lexer can feed
it — `digits`, `digits.digits`, `digits.`, `.digits` — as an exact
rational; any other shape (in particular the empty string or a lone `.`,
which `parse` rejects) is `none`. -/
def parseDecimal (s : List Char) : Option ℚ :=
  let intPart := s.takeWhile isDigitCh
  let rest := s.dropWhile isDigitCh
  match rest with
  | [] => if intPart.isEmpty then none else some (digitsToNat intPart)
  | '.' :: frac =>
    if frac.all isDigitCh && !(intPart.isEmpty && frac.isEmpty) then
      some ((digitsToNat intPart : ℚ) + (digitsToNat frac : ℚ) / (10 : ℚ) ^ frac.length)
    else none
  | _ => none

/-- The middle of `Lexer::number`: the fractional part is entered only
when `peek` is `'.'` (argument `p`) and `peek_next` is a digit. -/
def numberFrac (st : LexerSt) (p : Char) : Option LexerSt :=
  if p = '.' then do
    let pn ← peekNext st
    if isDigitCh pn then digitLoop { st with current := st.current + 1 }
    else pure st
  else pure st

/-- `Lexer::number`: maximal digit run, a `.` consumed only when
`peek_next` is a digit, then the parsed slice is emitted. -/
def numberScan (st : LexerSt) : Option LexerSt := do
  let st1 ← digitLoop st
  let p ← peek st1
  let st2 ← numberFrac st1 p
  let text ← byteSlice st2.source st2.start st2.current
  let v ← parseDecimal text
  addToken st2 (.number v)

/-- `Lexer::identifier`: maximal alphanumeric run, keyword table lookup,
fall back to `Identifier`. -/
def identifierScan (st : LexerSt) : Option LexerSt := do
  let st ← identLoop st
  let text ← byteSlice st.source st.start st.current
  addToken st ((keywordLookup text).getD .identifier)

/-- `Lexer::string`: scan to the closing quote; at end of input return
`Err("Unterminated string")`, otherwise consume the closing quote and
emit the body (the slice excluding both quotes). -/
def stringScan (st : LexerSt) : Option (LexerSt × Option String) := do
  let st ← stringLoop st
  if isAtEnd st then pure (st, some "Unterminated string")
  else
    let st := { st with current := st.current + 1 }
    let value ← byteSlice st.source (st.start + 1) (st.current - 1)
    let st ← addToken st (.string value)
    pure (st, none)

/-- The comment-skipping loop `while self.peek() != '\n' && self.is_at_end()`
in `Lexer::scan_token` (note: `is_at_end`, not `!is_at_end`).  When the
condition holds it holds forever (at end of input `peek` stays `'\x00'`
and the cursor only grows), so the Rust loop either exits at once, having
skipped nothing, or never terminates; non-termination is modelled, like a
panic, by `none`. -/
def commentLoop (st : LexerSt) : Option LexerSt := do
  let p ← peek st
  if p != '\n' && isAtEnd st then none else pure st

/-- The dispatch of `Lexer::scan_token` on the consumed character `c`,
from the state `st` just after the initial `advance`.  The result pairs
the new state with `some (line, message)` for an `Err((line, msg))`
return. -/
def scanTokenBody (c : Char) (st : LexerSt) : Option (LexerSt × Option (Nat × String)) :=
  if c = '(' then (·, none) <$> addToken st .leftParen
  else if c = ')' then (·, none) <$> addToken st .rightParen
  else if c = '{' then (·, none) <$> addToken st .leftBrace
  else if c = '}' then (·, none) <$> addToken st .rightBrace
  else if c = ',' then (·, none) <$> addToken st .comma
  else if c = '.' then (·, none) <$> addToken st .dot
  else if c = '-' then (·, none) <$> addToken st .minus
  else if c = '+' then (·, none) <$> addToken st .plus
  else if c = ';' then (·, none) <$> addToken st .semicolon
  else if c = '*' then (·, none) <$> addToken st .star
  else if c = '!' then (·, none) <$> matchLexeme st '=' .bangEqual .bang
  else if c = '=' then (·, none) <$> matchLexeme st '=' .equalEqual .equal
  else if c = '<' then (·, none) <$> matchLexeme st '=' .lessEqual .less
  else if c = '>' then (·, none) <$> matchLexeme st '=' .greaterEqual .greater
  else if c = '/' then do
    let b ← matchLexemePeek st '/'
    if b then (·, none) <$> commentLoop st
    else (·, none) <$> addToken st .slash
  else if c = ' ' then some (st, none)
  else if c = '\r' then some (st, none)
  else if c = '\t' then some (st, none)
  else if c = '\n' then some ({ st with line := st.line + 1 }, none)
  else if c = '"' then do
    let (st, e) ← stringScan st
    match e with
    | some msg => pure (st, some (st.line, msg))
    | none => pure (st, none)
  else if isDigitCh c then (·, none) <$> numberScan st
  else if isAlphaCh c then (·, none) <$> identifierScan st
  else some (st, some (st.line, "Unexpected character"))

/-- `Lexer::scan_token`: `advance` (whose `unwrap` of the char lookup is
the panic surface for non-ASCII input), then dispatch. -/
def scanToken (st0 : LexerSt) : Option (LexerSt × Option (Nat × String)) :=
  match advance st0 with
  | (none, _) => none
  | (some c, st) => scanTokenBody c st

/-- `Lexer::new`: fresh state, cursor at 0, line 1. -/
def mkLexer (source : List Char) : LexerSt :=
  { source := source, tokens := [], start := 0, current := 0, line := 1 }

/-- The `while !self.is_at_end()` loop of `Lexer::scan_tokens`: each
iteration sets `start := current`, scans one token and collects any
`Err`.  The fuel argument stands for the loop's iteration count; fuel
exhaustion yields `none`, and `scanLoopF_fuel_irrel` below shows every
fuel above `byteLen st.source - st.current` gives the same result, so
the entry point's `byteLen source + 1` is always enough. -/
def scanLoopF :
    Nat → LexerSt → List (Nat × String) → Bool →
      Option (LexerSt × List (Nat × String) × Bool)
  | 0, _, _, _ => none
  | fuel + 1, st, errors, hadError =>
    if isAtEnd st then some (st, errors, hadError)
    else
      match scanToken { st with start := st.current } with
      | none => none
      | some (st', none) => scanLoopF fuel st' errors hadError
      | some (st', some e) => scanLoopF fuel st' (errors ++ [e]) true

/-- `Lexer::scan_tokens` on a fresh lexer: `had_error` starts out `true`
(exactly as the code ships), is set `true` again on every collected
error, and gates both the `Err` return and the final `Eof` push. -/
def scanTokens (source : List Char) :
    Option (LexerSt × Except (List (Nat × String)) Unit) := do
  let (st, errors, hadError) ← scanLoopF (byteLen source + 1) (mkLexer source) [] true
  if hadError then pure (st, Except.error errors)
  else pure ({ st with tokens := st.tokens ++ [⟨.eof, [], st.line⟩] }, Except.ok ())

theorem byteLen_cons (c : Char) (s : List Char) :
    byteLen (c :: s) = c.utf8Size + byteLen s := by
  simp [byteLen]

theorem byteLen_eq_zero {s : List Char} : byteLen s = 0 ↔ s = [] := by
  cases s with
  | nil => simp [byteLen]
  | cons c rest =>
    simp only [byteLen_cons, List.cons_ne_nil, iff_false]
    have := Char.utf8Size_pos c
    omega

/-- What a successful `add_token` does to the state. -/
theorem addToken_some {st st' : LexerSt} {t : TokenType}
    (h : addToken st t = some st') :
    ∃ text, byteSlice st.source st.start st.current = some text ∧
      st' = { st with tokens := st.tokens ++ [⟨t, text, st.line⟩] } := by
  unfold addToken at h
  cases hb : byteSlice st.source st.start st.current with
  | none => rw [hb] at h; exact absurd h (by simp)
  | some text =>
    rw [hb] at h
    simp only [Option.map_some'] at h
    exact ⟨text, rfl, (Option.some.inj h).symm⟩

/-- What a successful `match_lexeme!` does: one token is pushed at the
incoming line, and the cursor moves by zero (miss) or one (hit). -/
theorem matchLexeme_some {st st' : LexerSt} {e : Char} {hit miss : TokenType}
    (h : matchLexeme st e hit miss = some st') :
    st'.source = st.source ∧ st'.start = st.start ∧ st'.line = st.line ∧
    st.current ≤ st'.current ∧ st'.current ≤ st.current + 1 ∧
    ∃ tok : Token, st'.tokens = st.tokens ++ [tok] ∧ tok.line = st.line := by
  unfold matchLexeme at h
  split at h
  · obtain ⟨text, -, rfl⟩ := addToken_some h
    exact ⟨rfl, rfl, rfl, le_refl _, Nat.le_succ _, ⟨_, rfl, rfl⟩⟩
  · split at h
    · exact absurd h (by simp)
    · split at h
      · obtain ⟨text, -, rfl⟩ := addToken_some h
        exact ⟨rfl, rfl, rfl, Nat.le_succ _, le_refl _, ⟨_, rfl, rfl⟩⟩
      · obtain ⟨text, -, rfl⟩ := addToken_some h
        exact ⟨rfl, rfl, rfl, le_refl _, Nat.le_succ _, ⟨_, rfl, rfl⟩⟩

/-- A successful run of the (dead) comment loop leaves the state alone. -/
theorem commentLoop_some {st st' : LexerSt} (h : commentLoop st = some st') :
    st' = st := by
  unfold commentLoop at h
  cases hp : peek st with
  | none => rw [hp] at h; exact absurd h (by simp)
  | some p =>
    rw [hp] at h
    replace h : (if (p != '\n') && isAtEnd st then none else pure st :
        Option LexerSt) = some st' := h
    split at h
    · exact absurd h (by simp)
    · exact (Option.some.inj h).symm

/-- What a successful identifier loop preserves: everything but the
cursor, which only moves forward. -/
theorem identLoopF_some {fuel : Nat} :
    ∀ {st st' : LexerSt}, identLoopF fuel st = some st' →
      st'.source = st.source ∧ st'.start = st.start ∧ st'.line = st.line ∧
      st'.tokens = st.tokens ∧ st.current ≤ st'.current := by
  induction fuel with
  | zero => intro st st' h; exact absurd h (by simp [identLoopF])
  | succ n ih =>
    intro st st' h
    simp only [identLoopF] at h
    split at h
    · cases h; exact ⟨rfl, rfl, rfl, rfl, le_refl _⟩
    · split at h
      · exact absurd h (by simp)
      · split at h
        · obtain ⟨h1, h2, h3, h4, h5⟩ := ih h
          exact ⟨h1, h2, h3, h4, le_trans (Nat.le_succ _) h5⟩
        · cases h; exact ⟨rfl, rfl, rfl, rfl, le_refl _⟩

/-- What a successful digit loop preserves. -/
theorem digitLoopF_some {fuel : Nat} :
    ∀ {st st' : LexerSt}, digitLoopF fuel st = some st' →
      st'.source = st.source ∧ st'.start = st.start ∧ st'.line = st.line ∧
      st'.tokens = st.tokens ∧ st.current ≤ st'.current := by
  induction fuel with
  | zero => intro st st' h; exact absurd h (by simp [digitLoopF])
  | succ n ih =>
    intro st st' h
    simp only [digitLoopF] at h
    split at h
    · cases h; exact ⟨rfl, rfl, rfl, rfl, le_refl _⟩
    · split at h
      · exact absurd h (by simp)
      · split at h
        · obtain ⟨h1, h2, h3, h4, h5⟩ := ih h
          exact ⟨h1, h2, h3, h4, le_trans (Nat.le_succ _) h5⟩
        · cases h; exact ⟨rfl, rfl, rfl, rfl, le_refl _⟩

/-- What a successful string-body loop preserves: tokens unchanged, the
line and cursor only move forward. -/
theorem stringLoopF_some {fuel : Nat} :
    ∀ {st st' : LexerSt}, stringLoopF fuel st = some st' →
      st'.source = st.source ∧ st'.start = st.start ∧ st.line ≤ st'.line ∧
      st'.tokens = st.tokens ∧ st.current ≤ st'.current := by
  induction fuel with
  | zero => intro st st' h; exact absurd h (by simp [stringLoopF])
  | succ n ih =>
    intro st st' h
    simp only [stringLoopF] at h
    split at h
    · cases h; exact ⟨rfl, rfl, le_refl _, rfl, le_refl _⟩
    · split at h
      · exact absurd h (by simp)
      · split at h
        · cases h; exact ⟨rfl, rfl, le_refl _, rfl, le_refl _⟩
        · obtain ⟨h1, h2, h3, h4, h5⟩ := ih h
          dsimp only at h1 h2 h3 h4 h5
          refine ⟨h1, h2, ?_, h4, ?_⟩
          · split at h3 <;> omega
          · omega

theorem bind_some_decomp {α β : Type} {x : Option α} {f : α → Option β} {b : β}
    (h : x >>= f = some b) : ∃ a, x = some a ∧ f a = some b := by
  cases x with
  | none => exact absurd h (by simp)
  | some a => exact ⟨a, rfl, h⟩

theorem digitLoop_some {st st' : LexerSt} (h : digitLoop st = some st') :
    st'.source = st.source ∧ st'.start = st.start ∧ st'.line = st.line ∧
    st'.tokens = st.tokens ∧ st.current ≤ st'.current :=
  digitLoopF_some h

theorem identLoop_some {st st' : LexerSt} (h : identLoop st = some st') :
    st'.source = st.source ∧ st'.start = st.start ∧ st'.line = st.line ∧
    st'.tokens = st.tokens ∧ st.current ≤ st'.current :=
  identLoopF_some h

theorem stringLoop_some {st st' : LexerSt} (h : stringLoop st = some st') :
    st'.source = st.source ∧ st'.start = st.start ∧ st.line ≤ st'.line ∧
    st'.tokens = st.tokens ∧ st.current ≤ st'.current :=
  stringLoopF_some h

/-- What a successful fractional-part step preserves. -/
theorem numberFrac_some {st st' : LexerSt} {p : Char} (h : numberFrac st p = some st') :
    st'.source = st.source ∧ st'.start = st.start ∧ st'.line = st.line ∧
    st'.tokens = st.tokens ∧ st.current ≤ st'.current := by
  unfold numberFrac at h
  split at h
  · obtain ⟨pn, hpn, h⟩ := bind_some_decomp h
    split at h
    · obtain ⟨e1, e2, e3, e4, e5⟩ := digitLoop_some h
      dsimp only at e1 e2 e3 e4 e5
      exact ⟨e1, e2, e3, e4, by omega⟩
    · cases Option.some.inj h; exact ⟨rfl, rfl, rfl, rfl, le_refl _⟩
  · cases Option.some.inj h; exact ⟨rfl, rfl, rfl, rfl, le_refl _⟩

/-- What a successful `Lexer::number` does: one token pushed at the
(unchanged) line, cursor only forward. -/
theorem numberScan_some {st st' : LexerSt} (h : numberScan st = some st') :
    st'.source = st.source ∧ st'.start = st.start ∧ st'.line = st.line ∧
    st.current ≤ st'.current ∧
    ∃ tok : Token, st'.tokens = st.tokens ++ [tok] ∧ tok.line = st'.line := by
  unfold numberScan at h
  obtain ⟨st1, h1, h⟩ := bind_some_decomp h
  obtain ⟨p, hp, h⟩ := bind_some_decomp h
  obtain ⟨st2, h2, h⟩ := bind_some_decomp h
  obtain ⟨text, ht, h⟩ := bind_some_decomp h
  obtain ⟨v, hv, h⟩ := bind_some_decomp h
  obtain ⟨d1, d2, d3, d4, d5⟩ := digitLoop_some h1
  obtain ⟨f1, f2, f3, f4, f5⟩ := numberFrac_some h2
  obtain ⟨text2, -, rfl⟩ := addToken_some h
  refine ⟨?_, ?_, ?_, ?_, ⟨⟨.number v, text2, st2.line⟩, ?_, rfl⟩⟩
  · dsimp only; rw [f1, d1]
  · dsimp only; rw [f2, d2]
  · dsimp only; rw [f3, d3]
  · dsimp only; omega
  · dsimp only; rw [f4, d4]

/-- What a successful `Lexer::identifier` does. -/
theorem identifierScan_some {st st' : LexerSt} (h : identifierScan st = some st') :
    st'.source = st.source ∧ st'.start = st.start ∧ st'.line = st.line ∧
    st.current ≤ st'.current ∧
    ∃ tok : Token, st'.tokens = st.tokens ++ [tok] ∧ tok.line = st'.line := by
  unfold identifierScan at h
  obtain ⟨st1, h1, h⟩ := bind_some_decomp h
  obtain ⟨text, ht, h⟩ := bind_some_decomp h
  obtain ⟨d1, d2, d3, d4, d5⟩ := identLoop_some h1
  obtain ⟨text2, -, rfl⟩ := addToken_some h
  refine ⟨?_, ?_, ?_, ?_, ⟨⟨(keywordLookup text).getD .identifier, text2, st1.line⟩, ?_, rfl⟩⟩
  · dsimp only; rw [d1]
  · dsimp only; rw [d2]
  · dsimp only; rw [d3]
  · dsimp only; omega
  · dsimp only; rw [d4]

/-- What a successful `Lexer::string` does: on `Ok` one `String` token is
pushed at the post-scan line (the closing quote's line); on `Err` the
tokens are unchanged; either way line and cursor only move forward. -/
theorem stringScan_some {st st1 : LexerSt} {e : Option String}
    (h : stringScan st = some (st1, e)) :
    st1.source = st.source ∧ st1.start = st.start ∧ st.line ≤ st1.line ∧
    st.current ≤ st1.current ∧
    ((e = none ∧ ∃ tok : Token, st1.tokens = st.tokens ++ [tok] ∧ tok.line = st1.line) ∨
     (e.isSome ∧ st1.tokens = st.tokens)) := by
  unfold stringScan at h
  obtain ⟨stL, hL, h⟩ := bind_some_decomp h
  obtain ⟨l1, l2, l3, l4, l5⟩ := stringLoop_some hL
  split at h
  · cases Option.some.inj h
    exact ⟨l1, l2, l3, l5, Or.inr ⟨rfl, l4⟩⟩
  · obtain ⟨value, hv, h⟩ := bind_some_decomp h
    obtain ⟨stA, hA, h⟩ := bind_some_decomp h
    cases Option.some.inj h
    obtain ⟨text, -, rfl⟩ := addToken_some hA
    dsimp only at l1 l2 l3 l4 l5 ⊢
    exact ⟨l1, l2, l3, by omega, Or.inl ⟨rfl, ⟨_, by rw [l4], rfl⟩⟩⟩

theorem map_pair_some {x : Option LexerSt} {st' : LexerSt} {e : Option (Nat × String)}
    (h : ((fun s => (s, (none : Option (Nat × String)))) <$> x) = some (st', e)) :
    x = some st' ∧ e = none := by
  cases x with
  | none =>
    replace h : (none : Option (LexerSt × Option (Nat × String))) = some (st', e) := h
    exact absurd h (by simp)
  | some s =>
    replace h : some (s, (none : Option (Nat × String))) = some (st', e) := h
    obtain ⟨h1, h2⟩ := Prod.mk.inj (Option.some.inj h)
    exact ⟨by rw [h1], h2.symm⟩

/-- Facts about one `scan_token` step, stated from the state just after
the initial `advance`, transported to the state before it. -/
theorem stepFacts_mono {st0 st' : LexerSt} {e : Option (Nat × String)}
    (h1 : st'.source = ({ st0 with current := st0.current + 1 } : LexerSt).source)
    (h2 : st'.start = ({ st0 with current := st0.current + 1 } : LexerSt).start)
    (h3 : ({ st0 with current := st0.current + 1 } : LexerSt).line ≤ st'.line)
    (h4 : ({ st0 with current := st0.current + 1 } : LexerSt).current ≤ st'.current)
    (h5 : ∃ new, st'.tokens = ({ st0 with current := st0.current + 1 } : LexerSt).tokens ++ new ∧
            ∀ tk ∈ new, tk.line = st'.line)
    (h6 : ∀ l m, e = some (l, m) → l = st'.line) :
    st'.source = st0.source ∧ st'.start = st0.start ∧ st0.line ≤ st'.line ∧
    st0.current < st'.current ∧
    (∃ new, st'.tokens = st0.tokens ++ new ∧ ∀ tk ∈ new, tk.line = st'.line) ∧
    (∀ l m, e = some (l, m) → l = st'.line) := by
  dsimp only at h1 h2 h3 h4 h5
  exact ⟨h1, h2, h3, by omega, h5, h6⟩

theorem addTokenStep {stA st' : LexerSt} {e : Option (Nat × String)} {t : TokenType}
    (h : ((fun s => (s, (none : Option (Nat × String)))) <$> addToken stA t) = some (st', e)) :
    st'.source = stA.source ∧ st'.start = stA.start ∧ stA.line ≤ st'.line ∧
    stA.current ≤ st'.current ∧
    (∃ new, st'.tokens = stA.tokens ++ new ∧ ∀ tk ∈ new, tk.line = st'.line) ∧
    (∀ l m, e = some (l, m) → l = st'.line) := by
  obtain ⟨hx, rfl⟩ := map_pair_some h
  obtain ⟨text, -, rfl⟩ := addToken_some hx
  exact ⟨rfl, rfl, le_refl _, le_refl _, ⟨[⟨t, text, stA.line⟩], rfl, by simp⟩, by simp⟩

theorem matchLexemeStep {stA st' : LexerSt} {e : Option (Nat × String)}
    {ec : Char} {hit miss : TokenType}
    (h : ((fun s => (s, (none : Option (Nat × String)))) <$> matchLexeme stA ec hit miss)
          = some (st', e)) :
    st'.source = stA.source ∧ st'.start = stA.start ∧ stA.line ≤ st'.line ∧
    stA.current ≤ st'.current ∧
    (∃ new, st'.tokens = stA.tokens ++ new ∧ ∀ tk ∈ new, tk.line = st'.line) ∧
    (∀ l m, e = some (l, m) → l = st'.line) := by
  obtain ⟨hx, rfl⟩ := map_pair_some h
  obtain ⟨m1, m2, m3, m4, m5, tok, m6, m7⟩ := matchLexeme_some hx
  exact ⟨m1, m2, le_of_eq m3.symm, m4, ⟨[tok], m6, by simp [m7, m3]⟩, by simp⟩

/-- What one successful dispatch does, from the post-`advance` state:
source, `start` untouched, cursor and line only forward, every pushed
token records the final line, a returned `Err` carries the final line. -/
theorem scanTokenBody_spec {c : Char} {st stB : LexerSt} {e : Option (Nat × String)}
    (h : scanTokenBody c st = some (stB, e)) :
    stB.source = st.source ∧ stB.start = st.start ∧ st.line ≤ stB.line ∧
    st.current ≤ stB.current ∧
    (∃ new, stB.tokens = st.tokens ++ new ∧ ∀ tk ∈ new, tk.line = stB.line) ∧
    (∀ l m, e = some (l, m) → l = stB.line) := by
  unfold scanTokenBody at h
  by_cases hc1 : c = '('
  · rw [if_pos hc1] at h
    exact addTokenStep h
  rw [if_neg hc1] at h
  by_cases hc2 : c = ')'
  · rw [if_pos hc2] at h
    exact addTokenStep h
  rw [if_neg hc2] at h
  by_cases hc3 : c = '\x7b'
  · rw [if_pos hc3] at h
    exact addTokenStep h
  rw [if_neg hc3] at h
  by_cases hc4 : c = '\x7d'
  · rw [if_pos hc4] at h
    exact addTokenStep h
  rw [if_neg hc4] at h
  by_cases hc5 : c = ','
  · rw [if_pos hc5] at h
    exact addTokenStep h
  rw [if_neg hc5] at h
  by_cases hc6 : c = '.'
  · rw [if_pos hc6] at h
    exact addTokenStep h
  rw [if_neg hc6] at h
  by_cases hc7 : c = '-'
  · rw [if_pos hc7] at h
    exact addTokenStep h
  rw [if_neg hc7] at h
  by_cases hc8 : c = '+'
  · rw [if_pos hc8] at h
    exact addTokenStep h
  rw [if_neg hc8] at h
  by_cases hc9 : c = ';'
  · rw [if_pos hc9] at h
    exact addTokenStep h
  rw [if_neg hc9] at h
  by_cases hc10 : c = '*'
  · rw [if_pos hc10] at h
    exact addTokenStep h
  rw [if_neg hc10] at h
  by_cases hc11 : c = '!'
  · rw [if_pos hc11] at h
    exact matchLexemeStep h
  rw [if_neg hc11] at h
  by_cases hc12 : c = '='
  · rw [if_pos hc12] at h
    exact matchLexemeStep h
  rw [if_neg hc12] at h
  by_cases hc13 : c = '<'
  · rw [if_pos hc13] at h
    exact matchLexemeStep h
  rw [if_neg hc13] at h
  by_cases hc14 : c = '>'
  · rw [if_pos hc14] at h
    exact matchLexemeStep h
  rw [if_neg hc14] at h
  by_cases hc15 : c = '/'
  · rw [if_pos hc15] at h
    obtain ⟨b, hb, h⟩ := bind_some_decomp h
    split at h
    · obtain ⟨hx, rfl⟩ := map_pair_some h
      have hcl := commentLoop_some hx
      subst hcl
      exact ⟨rfl, rfl, le_refl _, le_refl _, ⟨[], by simp, by simp⟩, by simp⟩
    · exact addTokenStep h
  rw [if_neg hc15] at h
  by_cases hc16 : c = ' '
  · rw [if_pos hc16] at h
    obtain ⟨h1, h2⟩ := Prod.mk.inj (Option.some.inj h)
    subst h1; subst h2
    exact ⟨rfl, rfl, le_refl _, le_refl _, ⟨[], by simp, by simp⟩, by simp⟩
  rw [if_neg hc16] at h
  by_cases hc17 : c = '\r'
  · rw [if_pos hc17] at h
    obtain ⟨h1, h2⟩ := Prod.mk.inj (Option.some.inj h)
    subst h1; subst h2
    exact ⟨rfl, rfl, le_refl _, le_refl _, ⟨[], by simp, by simp⟩, by simp⟩
  rw [if_neg hc17] at h
  by_cases hc18 : c = '\t'
  · rw [if_pos hc18] at h
    obtain ⟨h1, h2⟩ := Prod.mk.inj (Option.some.inj h)
    subst h1; subst h2
    exact ⟨rfl, rfl, le_refl _, le_refl _, ⟨[], by simp, by simp⟩, by simp⟩
  rw [if_neg hc18] at h
  by_cases hc19 : c = '\n'
  · rw [if_pos hc19] at h
    obtain ⟨h1, h2⟩ := Prod.mk.inj (Option.some.inj h)
    subst h1; subst h2
    exact ⟨rfl, rfl, Nat.le_succ _, le_refl _, ⟨[], by simp, by simp⟩, by simp⟩
  rw [if_neg hc19] at h
  by_cases hc20 : c = '"'
  · rw [if_pos hc20] at h
    obtain ⟨⟨st1, e1⟩, hS, h⟩ := bind_some_decomp h
    obtain ⟨s1, s2, s3, s4, s5⟩ := stringScan_some hS
    cases e1 with
    | some msg =>
      obtain ⟨h1, h2⟩ := Prod.mk.inj (Option.some.inj h)
      subst h1; subst h2
      rcases s5 with ⟨hno, -⟩ | ⟨-, htoks⟩
      · exact absurd hno (by simp)
      · refine ⟨s1, s2, s3, s4, ⟨[], by rw [htoks, List.append_nil], by simp⟩, ?_⟩
        intro l m hlm
        obtain ⟨hl, -⟩ := Prod.mk.inj (Option.some.inj hlm)
        exact hl.symm
    | none =>
      obtain ⟨h1, h2⟩ := Prod.mk.inj (Option.some.inj h)
      subst h1; subst h2
      rcases s5 with ⟨-, tok, htoks, hline⟩ | ⟨habs, -⟩
      · exact ⟨s1, s2, s3, s4, ⟨[tok], htoks, by simp [hline]⟩, by simp⟩
      · exact absurd habs (by simp)
  rw [if_neg hc20] at h
  by_cases hc21 : isDigitCh c = true
  · rw [if_pos hc21] at h
    obtain ⟨hx, rfl⟩ := map_pair_some h
    obtain ⟨n1, n2, n3, n4, tok, n5, n6⟩ := numberScan_some hx
    exact ⟨n1, n2, le_of_eq n3.symm, n4, ⟨[tok], n5, by simp [n6]⟩, by simp⟩
  rw [if_neg hc21] at h
  by_cases hc22 : isAlphaCh c = true
  · rw [if_pos hc22] at h
    obtain ⟨hx, rfl⟩ := map_pair_some h
    obtain ⟨n1, n2, n3, n4, tok, n5, n6⟩ := identifierScan_some hx
    exact ⟨n1, n2, le_of_eq n3.symm, n4, ⟨[tok], n5, by simp [n6]⟩, by simp⟩
  rw [if_neg hc22] at h
  obtain ⟨h1, h2⟩ := Prod.mk.inj (Option.some.inj h)
  subst h1; subst h2
  refine ⟨rfl, rfl, le_refl _, le_refl _, ⟨[], by simp, by simp⟩, ?_⟩
  intro l m hlm
  obtain ⟨hl, -⟩ := Prod.mk.inj (Option.some.inj hlm)
  exact hl.symm

/-- One successful `scan_token` step: source and `start` are untouched,
the cursor strictly advances, the line never decreases, every token
pushed during the step records the step's final line, and a returned
`Err` carries the step's final line. -/
theorem scanToken_spec {st0 st' : LexerSt} {e : Option (Nat × String)}
    (h : scanToken st0 = some (st', e)) :
    st'.source = st0.source ∧ st'.start = st0.start ∧ st0.line ≤ st'.line ∧
    st0.current < st'.current ∧
    (∃ new, st'.tokens = st0.tokens ++ new ∧ ∀ tk ∈ new, tk.line = st'.line) ∧
    (∀ l m, e = some (l, m) → l = st'.line) := by
  unfold scanToken at h
  cases hc : st0.source.get? st0.current with
  | none =>
    rw [show advance st0 =
          (st0.source.get? st0.current, { st0 with current := st0.current + 1 }) from rfl,
        hc] at h
    exact absurd h (by simp)
  | some c =>
    rw [show advance st0 =
          (st0.source.get? st0.current, { st0 with current := st0.current + 1 }) from rfl,
        hc] at h
    replace h : scanTokenBody c { st0 with current := st0.current + 1 } = some (st', e) := h
    obtain ⟨b1, b2, b3, b4, b5, b6⟩ := scanTokenBody_spec h
    dsimp only at b1 b2 b3 b4 b5
    exact ⟨b1, b2, b3, by omega, b5, b6⟩

/-- Any two sufficient fuels agree, so the identifier loop's result is
the loop's true (fuel-free) semantics. -/
theorem identLoopF_fuel_irrel :
    ∀ {f₁ f₂ : Nat} {st : LexerSt}, st.source.length - st.current < f₁ →
      st.source.length - st.current < f₂ → identLoopF f₁ st = identLoopF f₂ st := by
  intro f₁
  induction f₁ with
  | zero => intro f₂ st h1 h2; omega
  | succ n ih =>
    intro f₂ st h1 h2
    cases f₂ with
    | zero => omega
    | succ m =>
      simp only [identLoopF]
      split
      · rfl
      · cases hg : st.source.get? st.current with
        | none => simp only [hg]
        | some c =>
          simp only [hg]
          split
          · have hlt : st.current < st.source.length := (List.get?_eq_some.mp hg).1
            exact ih (by dsimp only; omega) (by dsimp only; omega)
          · rfl

/-- Any two sufficient fuels agree for the digit loop. -/
theorem digitLoopF_fuel_irrel :
    ∀ {f₁ f₂ : Nat} {st : LexerSt}, st.source.length - st.current < f₁ →
      st.source.length - st.current < f₂ → digitLoopF f₁ st = digitLoopF f₂ st := by
  intro f₁
  induction f₁ with
  | zero => intro f₂ st h1 h2; omega
  | succ n ih =>
    intro f₂ st h1 h2
    cases f₂ with
    | zero => omega
    | succ m =>
      simp only [digitLoopF]
      split
      · rfl
      · cases hg : st.source.get? st.current with
        | none => simp only [hg]
        | some c =>
          simp only [hg]
          split
          · have hlt : st.current < st.source.length := (List.get?_eq_some.mp hg).1
            exact ih (by dsimp only; omega) (by dsimp only; omega)
          · rfl

/-- Any two sufficient fuels agree for the string-body loop. -/
theorem stringLoopF_fuel_irrel :
    ∀ {f₁ f₂ : Nat} {st : LexerSt}, st.source.length - st.current < f₁ →
      st.source.length - st.current < f₂ → stringLoopF f₁ st = stringLoopF f₂ st := by
  intro f₁
  induction f₁ with
  | zero => intro f₂ st h1 h2; omega
  | succ n ih =>
    intro f₂ st h1 h2
    cases f₂ with
    | zero => omega
    | succ m =>
      simp only [stringLoopF]
      split
      · rfl
      · cases hg : st.source.get? st.current with
        | none => simp only [hg]
        | some c =>
          simp only [hg]
          split
          · rfl
          · have hlt : st.current < st.source.length := (List.get?_eq_some.mp hg).1
            exact ih (by dsimp only; omega) (by dsimp only; omega)

/-- Any two sufficient fuels agree for the main scan loop: one scanned
token consumes at least one byte, so `byteLen source - current` bounds
the remaining iteration count.  This is the termination argument of
`scan_tokens`: the cursor strictly advances every iteration and the loop
reaches end of input after finitely many steps. -/
theorem scanLoopF_fuel_irrel :
    ∀ {f₁ f₂ : Nat} {st : LexerSt} {errs : List (Nat × String)} {b : Bool},
      byteLen st.source - st.current < f₁ → byteLen st.source - st.current < f₂ →
      scanLoopF f₁ st errs b = scanLoopF f₂ st errs b := by
  intro f₁
  induction f₁ with
  | zero => intro f₂ st errs b h1 h2; omega
  | succ n ih =>
    intro f₂ st errs b h1 h2
    cases f₂ with
    | zero => omega
    | succ m =>
      simp only [scanLoopF]
      split
      · rfl
      next hend =>
        have hlt : st.current < byteLen st.source := by
          simp only [isAtEnd, decide_eq_true_eq] at hend
          omega
        cases hs : scanToken { st with start := st.current } with
        | none => simp only [hs]
        | some r =>
          obtain ⟨stM, e⟩ := r
          obtain ⟨q1, -, -, q4, -, -⟩ := scanToken_spec hs
          dsimp only at q1 q4
          have hrec₁ : byteLen stM.source - stM.current < n := by rw [q1]; omega
          have hrec₂ : byteLen stM.source - stM.current < m := by rw [q1]; omega
          cases e with
          | none => simp only [hs]; exact ih hrec₁ hrec₂
          | some ev => simp only [hs]; exact ih hrec₁ hrec₂

/-- `had_error` is never cleared: whatever the loop does, a `true` flag
stays `true`. -/
theorem scanLoopF_hadError {f : Nat} :
    ∀ {st : LexerSt} {errs : List (Nat × String)} {b : Bool}
      {r : LexerSt × List (Nat × String) × Bool},
      scanLoopF f st errs b = some r → b = true → r.2.2 = true := by
  induction f with
  | zero => intro st errs b r h hb; exact absurd h (by simp [scanLoopF])
  | succ n ih =>
    intro st errs b r h hb
    simp only [scanLoopF] at h
    split at h
    · cases Option.some.inj h; exact hb
    · cases hs : scanToken { st with start := st.current } with
      | none => rw [hs] at h; exact absurd h (by simp)
      | some p =>
        obtain ⟨stM, e⟩ := p
        rw [hs] at h
        cases e with
        | none =>
          replace h : scanLoopF n stM errs b = some r := h
          exact ih h hb
        | some ev =>
          replace h : scanLoopF n stM (errs ++ [ev]) true = some r := h
          exact ih h rfl

/-- The shipped `scan_tokens` can only ever produce the `Err` result:
`had_error` is initialized `true` and never cleared. -/
theorem scanTokens_always_err {source : List Char}
    {r : LexerSt × Except (List (Nat × String)) Unit}
    (h : scanTokens source = some r) : ∃ errs, r.2 = Except.error errs := by
  unfold scanTokens at h
  obtain ⟨⟨st, errs, hadError⟩, hL, h⟩ := bind_some_decomp h
  have : hadError = true := scanLoopF_hadError hL rfl
  subst this
  replace h : some (st, Except.error errs) = some r := h
  rw [(Option.some.inj h).symm]
  exact ⟨errs, rfl⟩

theorem chain_of_const {nl : List Nat} {b : Nat} (hn : ∀ x ∈ nl, x = b) :
    List.Chain' (· ≤ ·) nl := by
  induction nl with
  | nil => simp
  | cons a tl ih =>
    rw [List.chain'_cons']
    refine ⟨?_, ih fun x hx => hn x (List.mem_cons_of_mem _ hx)⟩
    intro y hy
    have ha : a = b := hn a (List.mem_cons_self _ _)
    have hyb : y = b := hn y (List.mem_cons_of_mem _ (List.mem_of_mem_head? hy))
    omega

theorem chain_append_const {l nl : List Nat} {bd bd' : Nat}
    (hc : List.Chain' (· ≤ ·) l) (hb : ∀ x ∈ l, x ≤ bd)
    (hn : ∀ x ∈ nl, x = bd') (hd : bd ≤ bd') :
    List.Chain' (· ≤ ·) (l ++ nl) ∧ ∀ x ∈ l ++ nl, x ≤ bd' := by
  constructor
  · rw [List.chain'_append]
    refine ⟨hc, chain_of_const hn, ?_⟩
    intro x hx y hy
    have hx' : x ≤ bd := hb x (List.mem_of_mem_getLast? hx)
    have hy' : y = bd' := hn y (List.mem_of_mem_head? hy)
    omega
  · intro x hx
    rcases List.mem_append.mp hx with hx | hx
    · exact le_trans (hb x hx) hd
    · exact le_of_eq (hn x hx)

/-- The loop invariant behind line monotonicity: token lines and error
lines are emitted in non-decreasing order, all bounded by the current
line, which itself never decreases. -/
theorem scanLoopF_sorted {f : Nat} :
    ∀ {st : LexerSt} {errs : List (Nat × String)} {b : Bool}
      {st' : LexerSt} {errs' : List (Nat × String)} {b' : Bool},
      scanLoopF f st errs b = some (st', errs', b') →
      List.Chain' (· ≤ ·) (st.tokens.map Token.line) →
      (∀ t ∈ st.tokens, t.line ≤ st.line) →
      List.Chain' (· ≤ ·) (errs.map Prod.fst) →
      (∀ e ∈ errs, e.1 ≤ st.line) →
      List.Chain' (· ≤ ·) (st'.tokens.map Token.line) ∧
      List.Chain' (· ≤ ·) (errs'.map Prod.fst) ∧
      (∀ t ∈ st'.tokens, t.line ≤ st'.line) ∧
      (∀ e ∈ errs', e.1 ≤ st'.line) ∧ st.line ≤ st'.line := by
  induction f with
  | zero => intro st errs b st' errs' b' h _ _ _ _; exact absurd h (by simp [scanLoopF])
  | succ n ih =>
    intro st errs b st' errs' b' h hct hbt hce hbe
    simp only [scanLoopF] at h
    split at h
    · obtain ⟨hA, hBC⟩ := Prod.mk.inj (Option.some.inj h)
      obtain ⟨hB, hC⟩ := Prod.mk.inj hBC
      subst hA; subst hB; subst hC
      exact ⟨hct, hce, hbt, hbe, le_refl _⟩
    · cases hs : scanToken { st with start := st.current } with
      | none => rw [hs] at h; exact absurd h (by simp)
      | some p =>
        obtain ⟨stM, e⟩ := p
        rw [hs] at h
        obtain ⟨q1, q2, q3, q4, ⟨new, q5, q6⟩, q7⟩ := scanToken_spec hs
        dsimp only at q1 q2 q3 q4 q5
        have hchain : List.Chain' (· ≤ ·) (stM.tokens.map Token.line) ∧
            ∀ x ∈ stM.tokens.map Token.line, x ≤ stM.line := by
          rw [q5, List.map_append]
          exact chain_append_const hct
            (by intro x hx
                obtain ⟨t, ht, rfl⟩ := List.mem_map.mp hx
                exact hbt t ht)
            (by intro x hx
                obtain ⟨t, ht, rfl⟩ := List.mem_map.mp hx
                exact q6 t ht) q3
        have hbt' : ∀ t ∈ stM.tokens, t.line ≤ stM.line := by
          intro t ht
          exact hchain.2 _ (List.mem_map.mpr ⟨t, ht, rfl⟩)
        cases e with
        | none =>
          replace h : scanLoopF n stM errs b = some (st', errs', b') := h
          obtain ⟨r1, r2, r3, r4, r5⟩ := ih h hchain.1 hbt' hce
            (fun e he => le_trans (hbe e he) q3)
          exact ⟨r1, r2, r3, r4, le_trans q3 r5⟩
        | some ev =>
          replace h : scanLoopF n stM (errs ++ [ev]) true = some (st', errs', b') := h
          have hev : ev.1 = stM.line := q7 ev.1 ev.2 rfl
          have hechain : List.Chain' (· ≤ ·) ((errs ++ [ev]).map Prod.fst) ∧
              ∀ x ∈ (errs ++ [ev]).map Prod.fst, x ≤ stM.line := by
            rw [List.map_append]
            exact chain_append_const hce
              (by intro x hx
                  obtain ⟨p, hp, rfl⟩ := List.mem_map.mp hx
                  exact hbe p hp)
              (by intro x hx
                  obtain ⟨p, hp, rfl⟩ := List.mem_map.mp hx
                  cases List.mem_singleton.mp hp
                  exact hev) q3
          obtain ⟨r1, r2, r3, r4, r5⟩ := ih h hchain.1 hbt' hechain.1
            (fun e he => hechain.2 _ (List.mem_map.mpr ⟨e, he, rfl⟩))
          exact ⟨r1, r2, r3, r4, le_trans q3 r5⟩

/-- C1: the claim says `scan_tokens` succeeds iff the accumulated error
list is empty.  On the empty input the scanner collects no error, yet
returns the `Err` result (carrying an empty error list), because
`had_error` is initialized `true` and never cleared. -/
theorem scanTokens_err_on_error_free_input :
    scanTokens [] = some (mkLexer [], Except.error []) := rfl

/-- C2: the claim says every output token sequence ends in exactly one
`Eof`.  Scanning `1` produces the token list `[Number 1]` containing no
`Eof` at all: the `Eof` push is guarded by `!had_error`, which never
holds. -/
theorem scanTokens_no_eof :
    scanTokens ['1'] =
      some (⟨['1'], [⟨.number 1, ['1'], 1⟩], 0, 1, 1⟩, Except.error []) ∧
    TokenType.eof ∉
      (⟨['1'], [⟨.number 1, ['1'], 1⟩], 0, 1, 1⟩ : LexerSt).tokens.map Token.type :=
  ⟨rfl, by decide⟩

/-- C3: the claim says scanning is total on every byte sequence,
including non-ASCII UTF-8, and never panics.  On the two-byte character
`é` the char-counting cursor falls short of the byte-length end check,
`chars().nth(current)` is `None`, and the `unwrap` in `advance` panics
(modelled by `none`). -/
theorem scanTokens_panics_on_utf8 : scanTokens ['é'] = none := rfl

/-- C4: the claim says `//` discards the rest of the line and produces
no token.  The comment loop's condition is `peek() != '\n' &&
is_at_end()` (not `!is_at_end()`), so its body never runs: on
`// comment\n123` the code emits a `Slash` token and an
`Identifier "comment"` token out of the comment text before
`Number 123` at line 2. -/
theorem scanTokens_comment_not_discarded :
    scanTokens "// comment\n123".toList =
      some (⟨"// comment\n123".toList,
             [⟨.slash, ['/'], 1⟩,
              ⟨.identifier, "comment".toList, 1⟩,
              ⟨.number 123, "123".toList, 2⟩], 11, 14, 2⟩,
            Except.error []) := rfl

/-- C5, counterexample: the claim says a token records the line where
its first character was consumed.  The string `"a\nb"` opens on line 1,
but its token records line 2 (the closing quote's line), since
`Lexer::string` counts the embedded newline before `add_token` runs. -/
theorem string_token_line_counterexample :
    scanTokens "\"a\nb\"".toList =
      some (⟨"\"a\nb\"".toList,
             [⟨.string ['a', '\n', 'b'], "\"a\nb\"".toList, 2⟩], 0, 5, 2⟩,
            Except.error []) ∧
    (2 : Nat) ≠ 1 :=
  ⟨rfl, by decide⟩

/-- C6: digit runs are maximal and a trailing `.` is consumed only when
followed by a digit: `123` gives `Number 123`, `1.5` gives
`Number (3/2)`, and `1.` gives `Number 1` then a `Dot` token. -/
theorem number_scanning_examples :
    scanTokens "123".toList =
      some (⟨"123".toList, [⟨.number 123, "123".toList, 1⟩], 0, 3, 1⟩,
            Except.error []) ∧
    scanTokens "1.5".toList =
      some (⟨"1.5".toList, [⟨.number (3 / 2), "1.5".toList, 1⟩], 0, 3, 1⟩,
            Except.error []) ∧
    scanTokens "1.".toList =
      some (⟨"1.".toList, [⟨.number 1, ['1'], 1⟩, ⟨.dot, ['.'], 1⟩], 1, 2, 1⟩,
            Except.error []) := by
  refine ⟨rfl, ?_, rfl⟩
  have hv : ((1 : Nat) : ℚ) + ((5 : Nat) : ℚ) / 10 ^ 1 = 3 / 2 := by norm_num
  calc scanTokens "1.5".toList
      = some (⟨"1.5".toList,
               [⟨.number (((1 : Nat) : ℚ) + ((5 : Nat) : ℚ) / 10 ^ 1), "1.5".toList, 1⟩],
               0, 3, 1⟩, Except.error []) := rfl
    _ = some (⟨"1.5".toList, [⟨.number (3 / 2), "1.5".toList, 1⟩], 0, 3, 1⟩,
              Except.error []) := by rw [hv]

/-- C8: lexical errors are local and recoverable: `@123` records
`Unexpected character` at line 1 and still emits `Number 123`; after a
first error at line 1, `@\n#1` still records a second error at line 2
and the token `Number 1`. -/
theorem error_recovery_examples :
    scanTokens "@123".toList =
      some (⟨"@123".toList, [⟨.number 123, "123".toList, 1⟩], 1, 4, 1⟩,
            Except.error [(1, "Unexpected character")]) ∧
    scanTokens "@\n#1".toList =
      some (⟨"@\n#1".toList, [⟨.number 1, ['1'], 2⟩], 3, 4, 2⟩,
            Except.error [(1, "Unexpected character"), (2, "Unexpected character")]) :=
  ⟨rfl, rfl⟩

/-- Evaluation of `match_lexeme!` from a cursor just past a one-byte
operator character at the head of the source. -/
theorem matchLexeme_head (c : Char) (rest : List Char) (toks : List Token)
    (ln : Nat) (hit miss : TokenType) (hc : c.utf8Size = 1) :
    matchLexeme ⟨c :: rest, toks, 0, 1, ln⟩ '=' hit miss =
      (if rest.head? = some '=' then
        some ⟨c :: rest, toks ++ [⟨hit, [c, '='], ln⟩], 0, 2, ln⟩
      else
        some ⟨c :: rest, toks ++ [⟨miss, [c], ln⟩], 0, 1, ln⟩) := by
  unfold matchLexeme
  cases rest with
  | nil =>
    rw [if_pos (by simp [isAtEnd, byteLen, hc]), if_neg (by simp)]
    unfold addToken
    simp [byteSlice, hc]
  | cons c2 rest2 =>
    have h2pos := Char.utf8Size_pos c2
    rw [if_neg (by simp [isAtEnd, byteLen, hc]; omega)]
    simp only [List.get?_cons_succ, List.get?_cons_zero]
    by_cases h2 : c2 = '='
    · subst h2
      rw [if_pos rfl, if_pos (show ('=' :: rest2).head? = some '=' from rfl)]
      unfold addToken
      simp [byteSlice, hc, show ('=' : Char).utf8Size = 1 from rfl]
    · rw [if_neg h2, if_neg (by simpa using h2)]
      unfold addToken
      simp [byteSlice, hc]

/-- C7: for each of `!`, `=`, `<`, `>`, when the next character is `=`
exactly one two-character token is emitted and both characters are
consumed (cursor 2); otherwise the one-character token is emitted and
the following character is not consumed (cursor 1). -/
theorem operator_lookahead :
    (∀ (rest : List Char) (ln : Nat) (toks : List Token),
      scanToken ⟨'!' :: rest, toks, 0, 0, ln⟩ =
        if rest.head? = some '=' then
          some (⟨'!' :: rest, toks ++ [⟨.bangEqual, ['!', '='], ln⟩], 0, 2, ln⟩, none)
        else
          some (⟨'!' :: rest, toks ++ [⟨.bang, ['!'], ln⟩], 0, 1, ln⟩, none)) ∧
    (∀ (rest : List Char) (ln : Nat) (toks : List Token),
      scanToken ⟨'=' :: rest, toks, 0, 0, ln⟩ =
        if rest.head? = some '=' then
          some (⟨'=' :: rest, toks ++ [⟨.equalEqual, ['=', '='], ln⟩], 0, 2, ln⟩, none)
        else
          some (⟨'=' :: rest, toks ++ [⟨.equal, ['='], ln⟩], 0, 1, ln⟩, none)) ∧
    (∀ (rest : List Char) (ln : Nat) (toks : List Token),
      scanToken ⟨'<' :: rest, toks, 0, 0, ln⟩ =
        if rest.head? = some '=' then
          some (⟨'<' :: rest, toks ++ [⟨.lessEqual, ['<', '='], ln⟩], 0, 2, ln⟩, none)
        else
          some (⟨'<' :: rest, toks ++ [⟨.less, ['<'], ln⟩], 0, 1, ln⟩, none)) ∧
    (∀ (rest : List Char) (ln : Nat) (toks : List Token),
      scanToken ⟨'>' :: rest, toks, 0, 0, ln⟩ =
        if rest.head? = some '=' then
          some (⟨'>' :: rest, toks ++ [⟨.greaterEqual, ['>', '='], ln⟩], 0, 2, ln⟩, none)
        else
          some (⟨'>' :: rest, toks ++ [⟨.greater, ['>'], ln⟩], 0, 1, ln⟩, none)) := by
  refine ⟨?_, ?_, ?_, ?_⟩
  · intro rest ln toks
    show ((fun s => (s, (none : Option (Nat × String)))) <$>
        matchLexeme ⟨'!' :: rest, toks, 0, 1, ln⟩ '=' TokenType.bangEqual TokenType.bang) = _
    rw [matchLexeme_head '!' rest toks ln _ _ (by decide)]
    by_cases hh : rest.head? = some '='
    · rw [if_pos hh, if_pos hh]
      rfl
    · rw [if_neg hh, if_neg hh]
      rfl
  · intro rest ln toks
    show ((fun s => (s, (none : Option (Nat × String)))) <$>
        matchLexeme ⟨'=' :: rest, toks, 0, 1, ln⟩ '=' TokenType.equalEqual TokenType.equal) = _
    rw [matchLexeme_head '=' rest toks ln _ _ (by decide)]
    by_cases hh : rest.head? = some '='
    · rw [if_pos hh, if_pos hh]
      rfl
    · rw [if_neg hh, if_neg hh]
      rfl
  · intro rest ln toks
    show ((fun s => (s, (none : Option (Nat × String)))) <$>
        matchLexeme ⟨'<' :: rest, toks, 0, 1, ln⟩ '=' TokenType.lessEqual TokenType.less) = _
    rw [matchLexeme_head '<' rest toks ln _ _ (by decide)]
    by_cases hh : rest.head? = some '='
    · rw [if_pos hh, if_pos hh]
      rfl
    · rw [if_neg hh, if_neg hh]
      rfl
  · intro rest ln toks
    show ((fun s => (s, (none : Option (Nat × String)))) <$>
        matchLexeme ⟨'>' :: rest, toks, 0, 1, ln⟩ '=' TokenType.greaterEqual TokenType.greater) = _
    rw [matchLexeme_head '>' rest toks ln _ _ (by decide)]
    by_cases hh : rest.head? = some '='
    · rw [if_pos hh, if_pos hh]
      rfl
    · rw [if_neg hh, if_neg hh]
      rfl

/-- Witness for C7 at `!=`: exactly one `BangEqual` token, both
characters consumed. -/
theorem operator_lookahead_witness :
    scanToken ⟨['!', '='], [], 0, 0, 1⟩ =
      some (⟨['!', '='], [⟨TokenType.bangEqual, ['!', '='], 1⟩], 0, 2, 1⟩, none) := by
  have h := operator_lookahead.1 ['='] 1 []
  rw [if_pos (show (['='] : List Char).head? = some '=' from rfl)] at h
  exact h

/-- C5 (amended): a token records the scanner's line at the moment it is
pushed, i.e. after all of its characters have been consumed: every token
added by a `scan_token` step carries the step's final line.  In
particular the string `"a\nb"`, whose opening quote sits on line 1,
records line 2 — the line of its closing quote. -/
theorem token_line_at_emission :
    (∀ st st' e, scanToken st = some (st', e) →
        ∃ new, st'.tokens = st.tokens ++ new ∧ ∀ t ∈ new, t.line = st'.line) ∧
    scanTokens "\"a\nb\"".toList =
      some (⟨"\"a\nb\"".toList,
             [⟨.string ['a', '\n', 'b'], "\"a\nb\"".toList, 2⟩], 0, 5, 2⟩,
            Except.error []) := by
  refine ⟨?_, rfl⟩
  intro st st' e h
  exact (scanToken_spec h).2.2.2.2.1

/-- Witness for C5 (amended) at a concrete step: scanning `+` pushes one
token recording the step's final line. -/
theorem token_line_at_emission_witness :
    ∃ new, (⟨['+'], [⟨TokenType.plus, ['+'], 1⟩], 0, 1, 1⟩ : LexerSt).tokens =
      (mkLexer ['+']).tokens ++ new ∧
      ∀ t ∈ new, t.line = (⟨['+'], [⟨TokenType.plus, ['+'], 1⟩], 0, 1, 1⟩ : LexerSt).line :=
  token_line_at_emission.1 (mkLexer ['+']) ⟨['+'], [⟨.plus, ['+'], 1⟩], 0, 1, 1⟩ none rfl

/-- C9: scanning terminates on every finite input: every successful
`scan_token` step strictly advances the cursor and preserves the source,
and the main loop's result is fuel-independent above
`byteLen source - current`, i.e. the loop reaches end of input within
`byteLen source` iterations. -/
theorem scanning_terminates :
    (∀ st st' e, scanToken st = some (st', e) →
        st.current < st'.current ∧ st'.source = st.source) ∧
    (∀ (f₁ f₂ : Nat) (st : LexerSt) (errs : List (Nat × String)) (b : Bool),
        byteLen st.source - st.current < f₁ → byteLen st.source - st.current < f₂ →
        scanLoopF f₁ st errs b = scanLoopF f₂ st errs b) := by
  constructor
  · intro st st' e h
    obtain ⟨q1, -, -, q4, -, -⟩ := scanToken_spec h
    exact ⟨q4, q1⟩
  · intro f₁ f₂ st errs b h1 h2
    exact scanLoopF_fuel_irrel h1 h2

/-- Witness for C9 at a concrete input. -/
theorem scanning_terminates_witness :
    ((mkLexer ['+']).current < 1 ∧ ['+'] = ['+']) ∧
    scanLoopF 2 (mkLexer ['+']) [] true = scanLoopF 3 (mkLexer ['+']) [] true := by
  constructor
  · exact scanning_terminates.1 (mkLexer ['+'])
      ⟨['+'], [⟨.plus, ['+'], 1⟩], 0, 1, 1⟩ none rfl
  · exact scanning_terminates.2 2 3 (mkLexer ['+']) [] true (by decide) (by decide)

/-- C10: the line counter starts at 1 and never decreases across scan
steps, and the lines recorded on successively emitted tokens, and on
successively recorded errors, are non-decreasing in emission order. -/
theorem line_monotonicity :
    (∀ source, (mkLexer source).line = 1) ∧
    (∀ st st' e, scanToken st = some (st', e) → st.line ≤ st'.line) ∧
    (∀ source st res, scanTokens source = some (st, res) →
        List.Chain' (· ≤ ·) (st.tokens.map Token.line) ∧
        ∀ errs, res = Except.error errs → List.Chain' (· ≤ ·) (errs.map Prod.fst)) := by
  refine ⟨fun _ => rfl, ?_, ?_⟩
  · intro st st' e h
    exact (scanToken_spec h).2.2.1
  · intro source st res h
    unfold scanTokens at h
    obtain ⟨⟨stL, errs, hadError⟩, hL, h⟩ := bind_some_decomp h
    obtain ⟨r1, r2, r3, r4, r5⟩ := scanLoopF_sorted hL (by simp [mkLexer])
      (by simp [mkLexer]) (by simp) (by simp)
    replace h : (if hadError = true then
        some (stL, Except.error errs)
      else
        some ({ stL with tokens := stL.tokens ++ [⟨TokenType.eof, [], stL.line⟩] },
              Except.ok ())
      : Option (LexerSt × Except (List (Nat × String)) Unit)) = some (st, res) := h
    split at h
    · obtain ⟨hA, hB⟩ := Prod.mk.inj (Option.some.inj h)
      subst hA; subst hB
      refine ⟨r1, ?_⟩
      intro errs2 he
      cases he
      exact r2
    · obtain ⟨hA, hB⟩ := Prod.mk.inj (Option.some.inj h)
      subst hA; subst hB
      constructor
      · dsimp only
        rw [List.map_append]
        refine (chain_append_const r1 ?_ ?_ (le_refl stL.line)).1
        · intro x hx
          obtain ⟨t, ht, rfl⟩ := List.mem_map.mp hx
          exact r3 t ht
        · intro x hx
          simp only [List.map_cons, List.map_nil, List.mem_singleton] at hx
          exact hx
      · intro errs2 he
        exact absurd he (by simp)

/-- Witness for C10 at a concrete input with two lines: token lines [2]
and error lines [1, 2] come out sorted. -/
theorem line_monotonicity_witness :
    List.Chain' (· ≤ ·)
      (([⟨TokenType.number 1, ['1'], 2⟩] : List Token).map Token.line) ∧
    List.Chain' (· ≤ ·)
      (([(1, "Unexpected character"), (2, "Unexpected character")] :
          List (Nat × String)).map Prod.fst) := by
  have h := line_monotonicity.2.2 "@\n#1".toList
    ⟨"@\n#1".toList, [⟨.number 1, ['1'], 2⟩], 3, 4, 2⟩
    (Except.error [(1, "Unexpected character"), (2, "Unexpected character")]) rfl
  exact ⟨h.1, h.2 _ rfl⟩

end RLox
